import Mathlib

/-!
# Verification of the document outline-extraction and persona-ranking pipeline

Shallow embedding of the pipeline implemented in `app/outline.py`,
`app/ranker.py`, `app/utils.py` and `app/main.py`:

* outline extraction (heading candidacy, level assignment, heading ordering),
* section segmentation (page-range text assembly and whitespace cleanup),
* text chunking with overlapping word windows,
* composite relevance scoring and stable descending ranking,
* PDF validation and multi-document error isolation.

Python machine floats are modelled by exact rationals (`ℚ`); the numeric
literals appearing in the code (0.55, 0.7, 1.2, …) are all exactly
representable, and every comparison the claims exercise is decided at
rational values where the float and rational orders agree.
Python strings are modelled by Lean `String`, with the Python-specific
primitives (`str.split()`, `' '.join`, `str.replace`, `str.strip`,
`str.lower`, the `in` substring test) re-implemented structurally over
`List Char` so that all definitions evaluate by `decide`/`rfl`.
Character classes (`isupper`, `isdigit`, whitespace) follow the ASCII
fragment, which is the fragment the repository's heuristics target.
-/

/-! ## Python string primitives (`app/utils.py`, `app/ranker.py` helpers) -/

/-- Accumulator-based word scanner: splits a character list on runs of
whitespace, discarding empty fields.  This is the semantics of Python's
`str.split()` with no arguments (restricted to ASCII whitespace). -/
def pyWordsAux : List Char → List Char → List (List Char)
  | [], acc => if acc.isEmpty then [] else [acc.reverse]
  | c :: cs, acc =>
    if c.isWhitespace then
      if acc.isEmpty then pyWordsAux cs [] else acc.reverse :: pyWordsAux cs []
    else
      pyWordsAux cs (c :: acc)

/-- Python `text.split()`: the whitespace-delimited words of a string. -/
def pySplit (t : String) : List String :=
  (pyWordsAux t.data []).map fun w => String.mk w

/-- Python `sep.join(l)`. -/
def pyJoin (sep : String) (l : List String) : String :=
  match l with
  | [] => ""
  | x :: xs => xs.foldl (fun acc s => acc ++ sep ++ s) x

/-- Python `str.replace(c, r)` for a single-character pattern (the only form
the code uses: `'\n'` and `'\t'` replaced by a space). -/
def pyReplaceChar (t : String) (c r : Char) : String :=
  String.mk (t.data.map fun d => if d = c then r else d)

/-- Python `str.strip()`: drop whitespace from both ends. -/
def pyStrip (t : String) : String :=
  String.mk (((t.data.dropWhile Char.isWhitespace).reverse.dropWhile
    Char.isWhitespace).reverse)

/-- Python `str.lower()` (ASCII). -/
def pyLower (s : String) : String :=
  String.mk (s.data.map Char.toLower)

/-- Does `needle` occur at the head of `hay`? -/
def charsStartWith : List Char → List Char → Bool
  | [], _ => true
  | _ :: _, [] => false
  | a :: as, b :: bs => a == b && charsStartWith as bs

/-- Substring containment on character lists. -/
def containsSub : List Char → List Char → Bool
  | [], needle => needle.isEmpty
  | c :: cs, needle => charsStartWith needle (c :: cs) || containsSub cs needle

/-- Python `needle in hay` for strings (substring containment). -/
def pyIn (needle hay : String) : Bool :=
  containsSub hay.data needle.data

/-! ## `app/utils.py` -/

/-- The body of the `while start < len(words)` loop of `chunk_text`
(`app/utils.py` lines 67-75), indexed by fuel.  `none` means the fuel ran
out, which happens exactly on the parameter combinations for which the
Python loop does not terminate (stride `max_tokens - overlap ≤ 0`). -/
def chunkLoop (words : List String) (max_tokens overlap : Nat) :
    Nat → Nat → Option (List String)
  | 0, _ => none
  | fuel + 1, start =>
    if start < words.length then
      let e := min (start + max_tokens) words.length
      let chunk := pyJoin " " ((words.drop start).take (e - start))
      if words.length ≤ e then
        some [chunk]
      else
        match chunkLoop words max_tokens overlap fuel (e - overlap) with
        | none => none
        | some rest => some (chunk :: rest)
    else
      some []

/-- `chunk_text` (`app/utils.py` lines 55-77): split text into overlapping
word windows.  A fuel of `words.length + 1` is enough for every terminating
run of the Python loop, since each iteration emits at least one word. -/
def chunk_text (text : String) (max_tokens overlap : Nat) :
    Option (List String) :=
  if text = "" then some []
  else
    let words := pySplit text
    if words.length ≤ max_tokens then some [text]
    else chunkLoop words max_tokens overlap (words.length + 1) 0

/-- Abstraction of a candidate PDF file as `validate_pdf` observes it:
whether the path exists, the file size, and the result of `fitz.open`
(`none` models the exception path, `some n` a successful open reporting
`n` pages). -/
structure PdfFile where
  on_disk : Bool
  size : Nat
  open_result : Option Nat
deriving DecidableEq

/-- `validate_pdf` (`app/utils.py` lines 24-45). -/
def validate_pdf (f : PdfFile) : Bool :=
  if !f.on_disk then false
  else if f.size = 0 then false
  else
    match f.open_result with
    | none => false
    | some page_count =>
      if page_count = 0 || page_count > 50 then false else true

/-! ## Data model (`app/outline.py`, `app/ranker.py`) -/

/-- A line-level text block as produced by `_extract_page_blocks`
(`app/outline.py` lines 69-125); only the fields the outline classifier
reads are retained. -/
structure Block where
  text : String
  fontsize : ℚ
  is_bold : Bool
  x_position : ℚ
  y_position : ℚ
  page : Nat
deriving DecidableEq

/-- A heading as emitted by `_extract_headings`: level, text and 1-based
page, with no position information retained. -/
structure Heading where
  level : String
  text : String
  page : Nat
deriving DecidableEq

/-! ## `OutlineExtractor` (`app/outline.py`) -/

/-- `self.min_title_font_ratio` (`app/outline.py` line 20). -/
def min_title_font_threshold : ℚ := 1.8

/-- `self.min_heading_font_ratio` (`app/outline.py` line 21). -/
def min_heading_font_threshold : ℚ := 1.0

/-- `self.min_h1_font_ratio` (`app/outline.py` line 22). -/
def min_h1_font_threshold : ℚ := 1.4

/-- `self.min_h2_font_ratio` (`app/outline.py` line 23). -/
def min_h2_font_threshold : ℚ := 1.2

/-- The positive font sizes collected by `extract_outline`
(`app/outline.py` line 43): `[b['fontsize'] for b in all_blocks if
b['fontsize'] > 0]`. -/
def font_sizes (blocks : List Block) : List ℚ :=
  (blocks.map fun b => b.fontsize).filter fun x => decide (0 < x)

/-- Python `statistics.median`: sort, then take the middle element (odd
length) or the mean of the two middle elements (even length).  Python
raises on an empty list; the `getD` default is never reached at the call
sites, which guard for non-empty input. -/
def pymedian (l : List ℚ) : ℚ :=
  let s := l.mergeSort fun a b => decide (a ≤ b)
  if s.length % 2 = 1 then s.getD (s.length / 2) 0
  else (s.getD (s.length / 2 - 1) 0 + s.getD (s.length / 2) 0) / 2

/-- `_is_centered` (`app/outline.py` lines 205-208). -/
def is_centered (b : Block) : Bool :=
  decide (b.x_position > 100)

/-- The number of uppercase characters of a string
(`sum(c.isupper() for c in text)`). -/
def upperCount (t : String) : Nat :=
  (t.data.filter Char.isUpper).length

/-- `_is_capitalized` (`app/outline.py` lines 210-214): text of length at
least 3 whose fraction of uppercase characters is *strictly* greater than
0.7.  (At exactly 70% — e.g. 7 of 10 — both the rational model and the
Python float comparison `7/10 > 0.7` yield `False`, since `7/10` and the
literal `0.7` denote the same double.) -/
def is_capitalized (t : String) : Bool :=
  if t.length < 3 then false
  else decide ((upperCount t : ℚ) / (t.length : ℚ) > (0.7 : ℚ))

/-- Regex `^\d+\.`: one or more digits then a dot. -/
def numberedPat1 (cs : List Char) : Bool :=
  let ds := cs.takeWhile Char.isDigit
  !ds.isEmpty &&
    match cs.drop ds.length with
    | '.' :: _ => true
    | _ => false

/-- Regex `^\d+\s+[A-Z]`: digits, whitespace, then an ASCII capital. -/
def numberedPat2 (cs : List Char) : Bool :=
  let ds := cs.takeWhile Char.isDigit
  let rest := cs.drop ds.length
  let ws := rest.takeWhile Char.isWhitespace
  !ds.isEmpty && !ws.isEmpty &&
    match rest.drop ws.length with
    | c :: _ => decide ('A' ≤ c ∧ c ≤ 'Z')
    | [] => false

/-- Regex `^[A-Z]\.`: an ASCII capital then a dot. -/
def numberedPat3 (cs : List Char) : Bool :=
  match cs with
  | c :: '.' :: _ => decide ('A' ≤ c ∧ c ≤ 'Z')
  | _ => false

/-- Regex `^\d+\.\d+`: digits, a dot, digits. -/
def numberedPat4 (cs : List Char) : Bool :=
  let ds := cs.takeWhile Char.isDigit
  !ds.isEmpty &&
    match cs.drop ds.length with
    | '.' :: rest => !(rest.takeWhile Char.isDigit).isEmpty
    | _ => false

/-- `_is_numbered_heading` (`app/outline.py` lines 216-225): the four
prefix regexes, any match wins. -/
def is_numbered_heading (t : String) : Bool :=
  numberedPat1 t.data || numberedPat2 t.data || numberedPat3 t.data ||
    numberedPat4 t.data

/-- `_is_heading_candidate` (`app/outline.py` lines 178-192): any of the
five criteria suffices.  `std_fontsize` is accepted and ignored, exactly as
in the source. -/
def is_heading_candidate (b : Block) (median_fontsize std_fontsize : ℚ) :
    Bool :=
  decide (b.fontsize / median_fontsize ≥ min_heading_font_threshold) ||
    b.is_bold || is_centered b || is_capitalized b.text ||
    is_numbered_heading b.text

/-- `_determine_heading_level` (`app/outline.py` lines 194-203). -/
def determine_heading_level (b : Block) (median_fontsize : ℚ) : String :=
  if b.fontsize / median_fontsize ≥ min_h1_font_threshold then "H1"
  else if b.fontsize / median_fontsize ≥ min_h2_font_threshold then "H2"
  else "H3"

/-- The y-coordinate that the sort key of `_extract_headings` re-derives
for a heading: the `y_position` of the *first* block in the document whose
text equals the heading's text (`app/outline.py` line 174,
`next(b for b in blocks if b["text"] == x["text"])`).  The `getD` default
is unreachable because every heading's text comes from some block. -/
def heading_sort_y (blocks : List Block) (t : String) : ℚ :=
  match blocks.find? fun b => b.text == t with
  | some b => b.y_position
  | none => 0

/-- The comparator realised by `headings.sort(key=lambda x: (x["page"],
...y_position...))`: lexicographic on (page, text-lookup y). -/
def headingKeyLE (blocks : List Block) (a b : Heading) : Bool :=
  decide (a.page < b.page ∨ (a.page = b.page ∧
    heading_sort_y blocks a.text ≤ heading_sort_y blocks b.text))

/-- `_extract_headings` (`app/outline.py` lines 159-176): collect the
candidate blocks in document order, then stable-sort by the
(page, text-lookup y) key.  Python's `list.sort` is a stable sort, modelled
by `List.mergeSort`. -/
def extract_headings (blocks : List Block)
    (median_fontsize std_fontsize : ℚ) : List Heading :=
  let headings := (blocks.filter fun b =>
      is_heading_candidate b median_fontsize std_fontsize).map fun b =>
    { level := determine_heading_level b median_fontsize,
      text := b.text, page := b.page }
  headings.mergeSort (headingKeyLE blocks)

/-! ## `PersonaRanker` (`app/ranker.py`) -/

/-- `self.weights["semantic_similarity"]` (`app/ranker.py` line 43). -/
def weight_semantic_similarity : ℚ := 0.55

/-- `self.weights["level_weight"]` (`app/ranker.py` line 44). -/
def weight_level : ℚ := 0.25

/-- `self.weights["recency_factor"]` (`app/ranker.py` line 45). -/
def weight_recency : ℚ := 0.15

/-- `self.weights["content_boost"]` (`app/ranker.py` line 46). -/
def weight_content_boost : ℚ := 0.05

/-- `self.level_weights` (`app/ranker.py` lines 50-55). -/
def level_weights : List (String × ℚ) :=
  [("H1", 1.0), ("H2", 0.7), ("H3", 0.4), ("title", 1.2)]

/-- `_clean_text` (`app/ranker.py` lines 166-174): collapse whitespace runs
to single spaces via `' '.join(text.split())`, then the (vacuous) newline
and tab replacements, then `strip()`. -/
def clean_text (text : String) : String :=
  let t1 := pyJoin " " (pySplit text)
  let t2 := pyReplaceChar (pyReplaceChar t1 '\n' ' ') '\t' ' '
  pyStrip t2

/-- A section as assembled by `_extract_full_sections`
(`app/ranker.py` lines 146-153). -/
structure Section where
  section_title : String
  level : String
  page : Nat
  text : String
  chunks : List String
deriving DecidableEq

/-- Python `range(a, b)` (for 0 ≤ a ≤ b; an empty range when b ≤ a). -/
def pyRange (a b : Nat) : List Nat :=
  List.range' a (b - a)

/-- The page-text accumulation loop of `_extract_full_sections`
(`app/ranker.py` lines 136-140): `section_text += page_text + "\n"` for
`page_num in range(start_page - 1, min(end_page, len(doc)))`, with pages
indexed 0-based into `pageTexts`. -/
def section_raw_text (pageTexts : List String) (a b : Nat) : String :=
  (pyRange a b).foldl (fun acc p => acc ++ pageTexts.getD p "" ++ "\n") ""

/-- One iteration of the heading loop of `_extract_full_sections`
(`app/ranker.py` lines 129-153): boundaries, raw text, cleanup, chunking.
`chunk_text` at `max_tokens = 200 > overlap = 50` always terminates, so the
`getD` default is unreachable. -/
def mkSection (pageTexts : List String) (h : Heading) (end_page : Nat) :
    Section :=
  let raw := section_raw_text pageTexts (h.page - 1)
    (min end_page pageTexts.length)
  let cleaned := clean_text raw
  { section_title := h.text, level := h.level, page := h.page,
    text := cleaned, chunks := (chunk_text cleaned 200 50).getD [] }

/-- `_extract_full_sections` (`app/ranker.py` lines 119-164) over a
document given as its list of page texts: one section per heading, with
`end_page` the next heading's page, or `len(doc)` for the last heading. -/
def extract_full_sections (pageTexts : List String) :
    List Heading → List Section
  | [] => []
  | h :: rest =>
    let end_page :=
      match rest with
      | [] => pageTexts.length
      | h2 :: _ => h2.page
    mkSection pageTexts h end_page :: extract_full_sections pageTexts rest

/-- `_calculate_content_boost` (`app/ranker.py` lines 270-287). -/
def calculate_content_boost (text query : String) : ℚ :=
  let text_lower := pyLower text
  let query_lower := pyLower query
  let boost1 : ℚ :=
    if (["data", "methodology", "analysis", "research"].any fun k =>
          pyIn k query_lower) &&
        (["table", "figure", "chart", "graph", "dataset"].any fun k =>
          pyIn k text_lower)
    then 0.3 else 0
  let boost2 : ℚ :=
    if (["revenue", "profit", "financial", "earnings"].any fun k =>
          pyIn k query_lower) &&
        (["$", "million", "billion", "percentage", "%"].any fun k =>
          pyIn k text_lower)
    then 0.2 else 0
  min (boost1 + boost2) 1

/-- `_calculate_section_score` (`app/ranker.py` lines 246-268). -/
def calculate_section_score (s : Section) (similarity : ℚ)
    (query : String) : ℚ :=
  let semantic_score := similarity
  let level_score := (List.lookup s.level level_weights).getD 0.5
  let content_score := calculate_content_boost s.text query
  let recency_score : ℚ := 0.5
  weight_semantic_similarity * semantic_score +
    weight_level * level_score +
    weight_recency * recency_score +
    weight_content_boost * content_score

/-- A section carrying the `relevance_score` and `importance_rank` fields
that `_rank_sections_by_relevance` adds (`app/ranker.py` lines 191-201). -/
structure ScoredSection where
  sec : Section
  relevance_score : ℚ
  importance_rank : Nat
deriving DecidableEq

/-- Reset `importance_rank` to its pre-ranking value 0; used to compare a
ranked section with its pre-sort form. -/
def stripRank (s : ScoredSection) : ScoredSection :=
  { s with importance_rank := 0 }

/-- The scoring pass of `_rank_sections_by_relevance` (`app/ranker.py`
lines 191-194): each section is paired with `similarities[i]` and scored;
`importance_rank` is initialised to 0. -/
def scoreSections (sims : List ℚ) (sections : List Section)
    (query : String) : List ScoredSection :=
  sections.enum.map fun p =>
    { sec := p.2,
      relevance_score := calculate_section_score p.2 (sims.getD p.1 0) query,
      importance_rank := 0 }

/-- The descending comparator of `sorted(sections, key=lambda x:
x["relevance_score"], reverse=True)`. -/
def scoreGE (a b : ScoredSection) : Bool :=
  decide (b.relevance_score ≤ a.relevance_score)

/-- The rank-assignment loop of `_rank_sections_by_relevance`
(`app/ranker.py` lines 200-201): `section["importance_rank"] = i + 1` in
list order. -/
def setRanks : Nat → List ScoredSection → List ScoredSection
  | _, [] => []
  | i, s :: rest => { s with importance_rank := i + 1 } :: setRanks (i + 1) rest

/-- `_rank_sections_by_relevance` (`app/ranker.py` lines 176-203),
parameterised by the pluggable similarity backend `simFn` (embedding or
TF-IDF; both are external collaborators returning one value per text).
Python's `sorted(..., reverse=True)` is a stable descending sort, modelled
by `List.mergeSort` with the descending comparator. -/
def rank_sections_by_relevance (simFn : List String → String → List ℚ)
    (sections : List Section) (query : String) : List ScoredSection :=
  if sections.isEmpty then []
  else
    let sims := simFn (sections.map fun s => s.text) query
    let scored := scoreSections sims sections query
    let ranked := scored.mergeSort scoreGE
    setRanks 0 ranked

/-- `PersonaRanker.rank_sections` (`app/ranker.py` lines 72-117) with the
per-document extraction pipeline abstracted: each input document is either
`some sections` (outline and section extraction succeeded) or `none` (the
`except` branch at lines 92-94 logged the error and `continue`d).  The
result pairs the top-10 ranked sections with the total candidate count. -/
def rank_sections (simFn : List String → String → List ℚ)
    (docs : List (Option (List Section))) (persona job : String) :
    Except String (List ScoredSection × Nat) :=
  let all_sections := docs.foldl (fun acc d => acc ++ d.getD []) []
  if all_sections.isEmpty then
    Except.error "No sections extracted from any PDF"
  else
    let persona_query := persona ++ ": " ++ job
    let ranked := rank_sections_by_relevance simFn all_sections persona_query
    Except.ok (ranked.take 10, all_sections.length)

/-- The validation filter of `DocumentProcessor.process_round_1b`
(`app/main.py` lines 82-87): only PDFs passing `validate_pdf` survive. -/
def valid_docs (files : List PdfFile) : List PdfFile :=
  files.filter validate_pdf

/-- `DocumentProcessor.process_round_1b` (`app/main.py` lines 75-119):
validate, fail if nothing valid remains, then hand the surviving documents
to the ranking pipeline.  `extract` abstracts the per-document outline and
section extraction that `rank_sections` performs internally. -/
def process_round_1b (extract : PdfFile → Option (List Section))
    (simFn : List String → String → List ℚ) (files : List PdfFile)
    (persona job : String) : Except String (List ScoredSection × Nat) :=
  let valid := valid_docs files
  if valid.isEmpty then Except.error "No valid PDFs found"
  else rank_sections simFn (valid.map extract) persona job

/-! ## Spec-side reference definitions -/

/-- The level-weight mapping as the specification words it:
H1→1.0, H2→0.7, H3→0.4, the title pseudo-level→1.2, anything else→0.5. -/
def levelWeightSpec (level : String) : ℚ :=
  if level = "H1" then 1.0
  else if level = "H2" then 0.7
  else if level = "H3" then 0.4
  else if level = "title" then 1.2
  else 0.5

/-! ## Claim theorems -/

/-- **C3.**  For every section and precomputed similarity value, the
composite relevance score equals `0.55·similarity + 0.25·levelWeight +
0.15·0.5 + 0.05·contentBoost`, with the level weight given by the
H1→1.0, H2→0.7, H3→0.4, title→1.2, default→0.5 mapping. -/
theorem claim_C3 (s : Section) (similarity : ℚ) (query : String) :
    calculate_section_score s similarity query =
      0.55 * similarity + 0.25 * levelWeightSpec s.level + 0.15 * 0.5 +
        0.05 * calculate_content_boost s.text query := by
  simp only [calculate_section_score, level_weights, levelWeightSpec,
    weight_semantic_similarity, weight_level, weight_recency,
    weight_content_boost, List.lookup]
  by_cases h1 : s.level = "H1"
  · simp [h1]
  · rw [beq_eq_false_iff_ne.mpr h1]
    by_cases h2 : s.level = "H2"
    · simp [h2]
    · rw [beq_eq_false_iff_ne.mpr h2]
      by_cases h3 : s.level = "H3"
      · simp [h3]
      · rw [beq_eq_false_iff_ne.mpr h3]
        by_cases h4 : s.level = "title"
        · simp [h4]
        · rw [beq_eq_false_iff_ne.mpr h4]
          simp [h1, h2, h3, h4]

/-- **C7 counterexample.**  The claim asserts that a text of length 10 with
exactly 7 uppercase characters satisfies the uppercase heuristic; the code
compares with a strict `> 0.7`, so exactly 70% fails. -/
theorem claim_C7_counterexample :
    "ABCDEFGhij".length = 10 ∧ upperCount "ABCDEFGhij" = 7 ∧
      is_capitalized "ABCDEFGhij" = false := by
  refine ⟨by decide, by decide, ?_⟩
  unfold is_capitalized
  rw [if_neg (by decide)]
  simp only [show "ABCDEFGhij".length = 10 from by decide,
    show upperCount "ABCDEFGhij" = 7 from by decide]
  rw [decide_eq_false_iff_not]
  norm_num

/-- **C7 (amended).**  The uppercase-heuristic criterion holds exactly when
the text has length at least 3 and *strictly more than* 70% of its
characters are uppercase; in particular a text of length 10 needs at least
8 uppercase characters, and one with exactly 7 fails. -/
theorem claim_C7_amended (t : String) :
    is_capitalized t = true ↔
      3 ≤ t.length ∧ 7 * t.length < 10 * upperCount t := by
  unfold is_capitalized
  by_cases h : t.length < 3
  · simp only [if_pos h, Bool.false_eq_true, false_iff, not_and]
    omega
  · rw [if_neg h, decide_eq_true_eq]
    have h3 : 3 ≤ t.length := by omega
    have hl : (0 : ℚ) < t.length := by exact_mod_cast by omega
    rw [gt_iff_lt, show (0.7 : ℚ) = 7 / 10 by norm_num,
      div_lt_div_iff (by norm_num) hl]
    constructor
    · intro hlt
      refine ⟨h3, ?_⟩
      have : (7 * t.length : ℚ) < 10 * upperCount t := by push_cast; linarith
      exact_mod_cast this
    · rintro ⟨-, hlt⟩
      have : (7 * t.length : ℚ) < 10 * upperCount t := by exact_mod_cast hlt
      push_cast at this
      linarith

/-- Characterisation of `validate_pdf`: helper for the validation claim. -/
theorem validate_pdf_iff (f : PdfFile) :
    validate_pdf f = true ↔
      f.on_disk = true ∧ f.size ≠ 0 ∧
        ∃ n, f.open_result = some n ∧ 1 ≤ n ∧ n ≤ 50 := by
  obtain ⟨d, sz, opn⟩ := f
  cases d
  · simp [validate_pdf]
  · cases opn with
    | none => simp [validate_pdf]
    | some n =>
      by_cases hsz : sz = 0
      · simp [validate_pdf, hsz]
      · simp only [validate_pdf, Bool.not_true, Bool.false_eq_true,
          if_false, if_neg hsz]
        split_ifs with h
        · simp only [Bool.false_eq_true, false_iff]
          rintro ⟨-, -, m, hm, h1, h50⟩
          cases hm
          simp at h
          omega
        · simp only [true_iff]
          refine ⟨trivial, hsz, n, rfl, ?_, ?_⟩ <;> (simp at h; omega)

/-- **C10.**  `validate_pdf` accepts exactly the files that exist, are
non-empty, open successfully and report a page count in 1..50; and a file
whose page count exceeds 50 never reaches the validated list that
`process_round_1b` hands to extraction and ranking (which also ignores the
rejected files entirely). -/
theorem claim_C10 :
    (∀ f : PdfFile, validate_pdf f = true ↔
      f.on_disk = true ∧ f.size ≠ 0 ∧
        ∃ n, f.open_result = some n ∧ 1 ≤ n ∧ n ≤ 50) ∧
    (∀ (files : List PdfFile) (f : PdfFile), f ∈ files →
      (∀ n, f.open_result = some n → 50 < n) → f ∉ valid_docs files) ∧
    (∀ (extract : PdfFile → Option (List Section))
        (simFn : List String → String → List ℚ)
        (files : List PdfFile) (persona job : String),
      process_round_1b extract simFn files persona job =
        process_round_1b extract simFn (valid_docs files) persona job) := by
  refine ⟨validate_pdf_iff, ?_, ?_⟩
  · intro files f hf hn hmem
    have hv := List.of_mem_filter hmem
    rcases (validate_pdf_iff f).mp hv with ⟨-, -, n, hop, -, hle⟩
    exact absurd (hn n hop) (by omega)
  · intro extract simFn files persona job
    simp only [process_round_1b, valid_docs, List.filter_filter,
      Bool.and_self]

/-- The file used to witness the page-count rejection: it exists, is
non-empty, opens fine, but reports 51 pages. -/
def c10File : PdfFile :=
  { on_disk := true, size := 5, open_result := some 51 }

/-- **C10 witness**: a concrete 51-page file is dropped by validation. -/
theorem claim_C10_witness :
    (c10File ∈ [c10File] ∧ ∀ n, c10File.open_result = some n → 50 < n) ∧
      c10File ∉ valid_docs [c10File] :=
  ⟨⟨by decide,
      fun n hn => by simp only [c10File, Option.some.injEq] at hn; omega⟩,
    claim_C10.2.1 [c10File] c10File (by decide)
      (fun n hn => by simp only [c10File, Option.some.injEq] at hn; omega)⟩

/-- `statistics.median` of a non-empty constant list is that constant. -/
theorem pymedian_const (l : List ℚ) (f : ℚ) (hne : l ≠ [])
    (hall : ∀ x ∈ l, x = f) : pymedian l = f := by
  unfold pymedian
  have hmem : ∀ x ∈ l.mergeSort fun a b => decide (a ≤ b), x = f :=
    fun x hx => hall x (List.mem_mergeSort.mp hx)
  have hlen : (l.mergeSort fun a b => decide (a ≤ b)).length = l.length :=
    List.length_mergeSort l
  have hlpos : 0 < l.length := List.length_pos.mpr hne
  have hget : ∀ i, i < (l.mergeSort fun a b => decide (a ≤ b)).length →
      (l.mergeSort fun a b => decide (a ≤ b)).getD i 0 = f := by
    intro i hi
    rw [List.getD_eq_getElem?_getD, List.getElem?_eq_getElem hi,
      Option.getD_some]
    exact hmem _ (List.getElem_mem hi)
  by_cases hpar :
      (l.mergeSort fun a b => decide (a ≤ b)).length % 2 = 1
  · rw [if_pos hpar, hget _ (by omega)]
  · rw [if_neg hpar, hget _ (by omega), hget _ (by omega)]
    ring

/-- **C8.**  In a document whose blocks all share one positive font size,
every block's font ratio is exactly 1 and every block passes the
heading-candidacy test (the `ratio ≥ 1.0` criterion fires at equality). -/
theorem claim_C8 (blocks : List Block) (f std : ℚ) (hne : blocks ≠ [])
    (hf : 0 < f) (hall : ∀ b ∈ blocks, b.fontsize = f) :
    ∀ b ∈ blocks,
      b.fontsize / pymedian (font_sizes blocks) = 1 ∧
      is_heading_candidate b (pymedian (font_sizes blocks)) std = true := by
  have hfs : ∀ x ∈ font_sizes blocks, x = f := by
    intro x hx
    obtain ⟨hx1, -⟩ := List.mem_filter.mp hx
    obtain ⟨b, hb, rfl⟩ := List.mem_map.mp hx1
    exact hall b hb
  have hfne : font_sizes blocks ≠ [] := by
    cases blocks with
    | nil => exact absurd rfl hne
    | cons b bs =>
      have hmem : b.fontsize ∈ font_sizes (b :: bs) := by
        refine List.mem_filter.mpr
          ⟨List.mem_map_of_mem _ (List.mem_cons_self b bs), ?_⟩
        rw [hall b (List.mem_cons_self b bs)]
        exact decide_eq_true hf
      exact List.ne_nil_of_mem hmem
  have hmed : pymedian (font_sizes blocks) = f := pymedian_const _ f hfne hfs
  intro b hb
  rw [hmed, hall b hb, div_self hf.ne']
  refine ⟨rfl, ?_⟩
  unfold is_heading_candidate
  rw [hall b hb, div_self hf.ne']
  simp only [min_heading_font_threshold, Bool.or_eq_true, decide_eq_true_eq]
  exact Or.inl (Or.inl (Or.inl (Or.inl (by norm_num))))

/-- A uniform-font block used to witness the C8 boundary. -/
def c8Block : Block :=
  { text := "plain body line", fontsize := 12, is_bold := false,
    x_position := 0, y_position := 0, page := 1 }

/-- **C8 witness**: a one-block uniform-font document, every block a
candidate with ratio exactly 1. -/
theorem claim_C8_witness :
    ([c8Block] ≠ ([] : List Block) ∧ (0 : ℚ) < 12 ∧
      ∀ b ∈ [c8Block], b.fontsize = 12) ∧
    ∀ b ∈ [c8Block],
      b.fontsize / pymedian (font_sizes [c8Block]) = 1 ∧
      is_heading_candidate b (pymedian (font_sizes [c8Block])) 1 = true :=
  ⟨⟨by simp, by norm_num,
      by rintro b hb; rw [List.mem_singleton] at hb; subst hb; rfl⟩,
    claim_C8 [c8Block] 12 1 (by simp) (by norm_num)
      (by rintro b hb; rw [List.mem_singleton] at hb; subst hb; rfl)⟩

/-- Full characterisation of a terminating run of the chunking loop, for a
positive stride (`overlap < max_tokens`): starting at `start`, the loop
emits the word windows at offsets `start, start + stride, …`, the last
window reaches the end of the word list, and no earlier window does. -/
theorem chunkLoop_spec (words : List String) (m o : Nat) (ho : o < m) :
    ∀ (fuel start : Nat), words.length - start < fuel →
      start < words.length →
      ∃ L, chunkLoop words m o fuel start = some L ∧ L ≠ [] ∧
        (∀ i (hi : i < L.length),
          L.get ⟨i, hi⟩ =
            pyJoin " " ((words.drop (start + i * (m - o))).take m)) ∧
        words.length ≤ start + (L.length - 1) * (m - o) + m ∧
        (∀ j, j + 1 < L.length →
          start + j * (m - o) + m < words.length) := by
  intro fuel
  induction fuel with
  | zero => intro start h; omega
  | succ fuel ih =>
    intro start hfuel hstart
    rw [chunkLoop, if_pos hstart]
    by_cases hend : words.length ≤ min (start + m) words.length
    · rw [if_pos hend]
      have hmin : min (start + m) words.length = words.length := by omega
      have h1 : (words.drop start).take (min (start + m) words.length - start)
          = words.drop start := by
        rw [hmin]
        exact List.take_of_length_le (by simp)
      have h2 : (words.drop start).take m = words.drop start :=
        List.take_of_length_le (by simp; omega)
      refine ⟨_, rfl, by simp, ?_, ?_, ?_⟩
      · intro i hi
        simp only [List.length_cons, List.length_nil] at hi
        interval_cases i
        simp [h1, h2]
      · simp only [List.length_cons, List.length_nil]
        omega
      · intro j hj
        simp only [List.length_cons, List.length_nil] at hj
        omega
    · rw [if_neg hend]
      have hlt : start + m < words.length := by omega
      have hmin : min (start + m) words.length = start + m := by omega
      rw [hmin]
      have hms : start + m - start = m := by omega
      rw [hms]
      obtain ⟨L', hL', hne', hwin', hend', hmid'⟩ :=
        ih (start + m - o) (by omega) (by omega)
      rw [hL']
      have hstart' : start + m - o = start + (m - o) := by omega
      rw [hstart'] at hwin' hend' hmid'
      refine ⟨_, rfl, by simp, ?_, ?_, ?_⟩
      · intro i hi
        match i with
        | 0 =>
          simp only [Nat.zero_mul, Nat.add_zero]
          rfl
        | i' + 1 =>
          simp only [List.length_cons] at hi
          have hw := hwin' i' (by omega)
          have hm : (i' + 1) * (m - o) = i' * (m - o) + (m - o) :=
            Nat.succ_mul i' (m - o)
          simp only [List.get_cons_succ]
          rw [hw]
          congr 3
          omega
      · have hlen1 : 1 ≤ L'.length := List.length_pos.mpr hne'
        have hmul : L'.length * (m - o) = (L'.length - 1) * (m - o) + (m - o) := by
          conv_lhs => rw [show L'.length = (L'.length - 1) + 1 from by omega]
          rw [Nat.succ_mul]
        simp only [List.length_cons, Nat.add_sub_cancel]
        rw [hmul]
        omega
      · intro j hj
        match j with
        | 0 => simpa using hlt
        | j' + 1 =>
          simp only [List.length_cons] at hj
          have hmj := hmid' j' (by omega)
          have hmm : (j' + 1) * (m - o) = j' * (m - o) + (m - o) :=
            Nat.succ_mul j' (m - o)
          omega

/-- **C5.**  `chunk_text` on empty text returns no chunks; on text of at
most `max_tokens` words returns the whole text as the single chunk; and
otherwise emits the word windows of width `max_tokens` at offsets
`0, stride, 2·stride, …` (stride = `max_tokens − overlap`), joined by
single spaces, where the final window is the first one reaching the end of
the word sequence (so it may be shorter, and no window is emitted past
it). -/
theorem claim_C5 (text : String) (m o : Nat) (ho : o < m) :
    (text = "" → chunk_text text m o = some []) ∧
    (text ≠ "" → (pySplit text).length ≤ m →
      chunk_text text m o = some [text]) ∧
    (m < (pySplit text).length →
      ∃ L, chunk_text text m o = some L ∧ L ≠ [] ∧
        (∀ i (hi : i < L.length),
          L.get ⟨i, hi⟩ =
            pyJoin " " (((pySplit text).drop (i * (m - o))).take m)) ∧
        (pySplit text).length ≤ (L.length - 1) * (m - o) + m ∧
        (∀ j, j + 1 < L.length →
          j * (m - o) + m < (pySplit text).length)) := by
  refine ⟨?_, ?_, ?_⟩
  · intro h
    simp [chunk_text, h]
  · intro h hle
    simp [chunk_text, h, hle]
  · intro hlen
    have h0 : text ≠ "" := by
      intro h
      rw [h] at hlen
      simp [pySplit, pyWordsAux] at hlen
    obtain ⟨L, hL, hne, hwin, hend, hmid⟩ :=
      chunkLoop_spec (pySplit text) m o ho ((pySplit text).length + 1) 0
        (by omega) (by omega)
    refine ⟨L, ?_, hne, ?_, ?_, ?_⟩
    · rw [chunk_text, if_neg h0]
      simp only [if_neg (not_le.mpr hlen)]
      exact hL
    · intro i hi
      simpa using hwin i hi
    · simpa using hend
    · intro j hj
      simpa using hmid j hj

/-- **C5 witness**: a five-word text with window 3 and overlap 1. -/
theorem claim_C5_witness :
    ((1 : Nat) < 3 ∧ 3 < (pySplit "a bb ccc dd e").length) ∧
      ∃ L, chunk_text "a bb ccc dd e" 3 1 = some L ∧ L ≠ [] ∧
        (∀ i (hi : i < L.length),
          L.get ⟨i, hi⟩ =
            pyJoin " " (((pySplit "a bb ccc dd e").drop (i * (3 - 1))).take 3)) ∧
        (pySplit "a bb ccc dd e").length ≤ (L.length - 1) * (3 - 1) + 3 ∧
        (∀ j, j + 1 < L.length →
          j * (3 - 1) + 3 < (pySplit "a bb ccc dd e").length) :=
  ⟨⟨by decide, by decide⟩,
    (claim_C5 "a bb ccc dd e" 3 1 (by decide)).2.2 (by decide)⟩

/-- **C9.**  For `overlap < max_tokens` (and hence a positive stride) the
chunking loop terminates on every input: `chunk_text` returns a result
within the `words.length + 1` fuel bound, i.e. after at most one iteration
per word. -/
theorem claim_C9 (text : String) (m o : Nat) (hm : 0 < m) (ho : o < m) :
    ∃ L, chunk_text text m o = some L := by
  by_cases h0 : text = ""
  · exact ⟨[], by simp [chunk_text, h0]⟩
  · by_cases hle : (pySplit text).length ≤ m
    · exact ⟨[text], by simp [chunk_text, h0, hle]⟩
    · obtain ⟨L, hL, -⟩ :=
        chunkLoop_spec (pySplit text) m o ho ((pySplit text).length + 1) 0
          (by omega) (by omega)
      refine ⟨L, ?_⟩
      rw [chunk_text, if_neg h0]
      simp only [if_neg hle]
      exact hL

/-- **C9 witness**: termination at a concrete three-word input. -/
theorem claim_C9_witness :
    ((0 : Nat) < 2 ∧ 1 < 2) ∧
      ∃ L, chunk_text "one two three" 2 1 = some L :=
  ⟨⟨by decide, by decide⟩,
    claim_C9 "one two three" 2 1 (by decide) (by decide)⟩

/-- The section accumulation of `rank_sections`: successful documents
contribute their sections in order, failed documents contribute nothing. -/
theorem rank_sections_fold_append (docs : List (Option (List Section)))
    (acc : List Section) :
    docs.foldl (fun acc d => acc ++ d.getD []) acc =
      acc ++ docs.foldl (fun acc d => acc ++ d.getD []) [] := by
  induction docs generalizing acc with
  | nil => simp
  | cons d rest ih =>
    simp only [List.foldl_cons]
    rw [ih (acc ++ d.getD []), ih ([] ++ d.getD []), List.nil_append,
      List.append_assoc]

/-- **C6.**  Ranking errors out exactly when every successful document
yields zero sections (i.e. no sections are extracted across all inputs);
and a failed document is skipped: removing it from the batch does not
change the result at all, so it never prevents the other documents'
sections from being ranked. -/
theorem claim_C6 (simFn : List String → String → List ℚ)
    (docs : List (Option (List Section))) (persona job : String) :
    ((∃ e, rank_sections simFn docs persona job = Except.error e) ↔
      ∀ d ∈ docs, ∀ s, d = some s → s = []) ∧
    (∀ pre post, pre ++ some [] :: post = docs →
      rank_sections simFn docs persona job =
        rank_sections simFn (pre ++ post) persona job) ∧
    (∀ pre post, pre ++ none :: post = docs →
      rank_sections simFn docs persona job =
        rank_sections simFn (pre ++ post) persona job) := by
  have hfold : ∀ (ds : List (Option (List Section))),
      (ds.foldl (fun acc d => acc ++ d.getD []) [] = []) ↔
        ∀ d ∈ ds, ∀ s, d = some s → s = [] := by
    intro ds
    induction ds with
    | nil => simp
    | cons d rest ih =>
      simp only [List.foldl_cons, List.nil_append]
      rw [rank_sections_fold_append rest (d.getD []), List.append_eq_nil]
      constructor
      · rintro ⟨h1, h2⟩
        intro x hx s hs
        rcases List.mem_cons.mp hx with hx | hx
        · subst hx
          cases hs
          simpa using h1
        · exact (ih.mp h2) x hx s hs
      · intro h
        refine ⟨?_, ih.mpr fun x hx s hs => h x (List.mem_cons_of_mem _ hx) s hs⟩
        cases d with
        | none => rfl
        | some s => simpa using h (some s) (List.mem_cons_self _ _) s rfl
  have hskip : ∀ (pre post : List (Option (List Section)))
      (d : Option (List Section)), d.getD [] = [] →
      rank_sections simFn (pre ++ d :: post) persona job =
        rank_sections simFn (pre ++ post) persona job := by
    intro pre post d hd
    unfold rank_sections
    have : (pre ++ d :: post).foldl (fun acc d => acc ++ d.getD []) [] =
        (pre ++ post).foldl (fun acc d => acc ++ d.getD []) [] := by
      rw [List.foldl_append, List.foldl_append, List.foldl_cons, hd,
        List.append_nil]
    rw [this]
  refine ⟨?_, ?_, ?_⟩
  · unfold rank_sections
    by_cases h : (docs.foldl (fun acc d => acc ++ d.getD []) []).isEmpty
    · simp only [if_pos h]
      rw [← hfold, ← List.isEmpty_iff_eq_nil]
      exact ⟨fun _ => h, fun _ => ⟨_, rfl⟩⟩
    · simp only [if_neg h]
      rw [← hfold, ← List.isEmpty_iff_eq_nil]
      constructor
      · rintro ⟨e, he⟩
        exact absurd he (by simp)
      · intro he
        exact absurd he h
  · intro pre post hd
    rw [← hd]
    exact hskip pre post (some []) rfl
  · intro pre post hd
    rw [← hd]
    exact hskip pre post none rfl

/-- A section used in concrete ranking witnesses. -/
def c6Section : Section :=
  { section_title := "Introduction", level := "H1", page := 1,
    text := "hello world", chunks := ["hello world"] }

/-- **C6 witness**: a batch with one failed document and one successful
document ranks exactly as the successful document alone. -/
theorem claim_C6_witness :
    ([] ++ none :: [some [c6Section]] =
        ([none, some [c6Section]] : List (Option (List Section)))) ∧
      rank_sections (fun _ _ => [1]) [none, some [c6Section]] "p" "j" =
        rank_sections (fun _ _ => [1]) ([] ++ [some [c6Section]]) "p" "j" :=
  ⟨rfl,
    (claim_C6 (fun _ _ => [1]) [none, some [c6Section]] "p" "j").2.2
      [] [some [c6Section]] rfl⟩

/-! ## Stable-ranking lemmas for the relevance sort -/

/-- The descending score comparator is transitive. -/
theorem scoreGE_trans (a b c : ScoredSection) :
    scoreGE a b → scoreGE b c → scoreGE a c := by
  simp only [scoreGE, decide_eq_true_eq]
  intro h1 h2
  exact le_trans h2 h1

/-- The descending score comparator is total. -/
theorem scoreGE_total (a b : ScoredSection) : scoreGE a b || scoreGE b a := by
  simp only [scoreGE, Bool.or_eq_true, decide_eq_true_eq]
  exact le_total b.relevance_score a.relevance_score

/-- Rank assignment does not change the list length. -/
theorem setRanks_length (k : Nat) (l : List ScoredSection) :
    (setRanks k l).length = l.length := by
  induction l generalizing k with
  | nil => rfl
  | cons s rest ih => simp [setRanks, ih]

/-- Rank assignment only touches `importance_rank`. -/
theorem setRanks_map_stripRank (k : Nat) (l : List ScoredSection) :
    (setRanks k l).map stripRank = l.map stripRank := by
  induction l generalizing k with
  | nil => rfl
  | cons s rest ih => simp [setRanks, ih, stripRank]

/-- Rank assignment preserves every relevance score in place. -/
theorem setRanks_map_score (k : Nat) (l : List ScoredSection) :
    (setRanks k l).map (fun s => s.relevance_score) =
      l.map fun s => s.relevance_score := by
  induction l generalizing k with
  | nil => rfl
  | cons s rest ih => simp [setRanks, ih]

/-- The `i`-th assigned rank is `k + i + 1`. -/
theorem setRanks_get_rank (l : List ScoredSection) :
    ∀ (k i : Nat) (hi : i < (setRanks k l).length),
    ((setRanks k l).get ⟨i, hi⟩).importance_rank = k + i + 1 := by
  induction l with
  | nil => intro k i hi; simp [setRanks] at hi
  | cons s rest ih =>
    intro k i hi
    match i with
    | 0 => rfl
    | i' + 1 =>
      have h' : i' < (setRanks (k + 1) rest).length := by
        simp only [setRanks, List.length_cons] at hi
        omega
      have hr := ih (k + 1) i' h'
      simp only [setRanks, List.get_cons_succ]
      rw [hr]
      omega

/-- Every section produced by the scoring pass still carries the initial
rank 0, so stripping ranks is the identity there. -/
theorem scoreSections_stripRank (sims : List ℚ) (secs : List Section)
    (query : String) :
    (scoreSections sims secs query).map stripRank =
      scoreSections sims secs query := by
  unfold scoreSections
  rw [List.map_map]
  exact List.map_congr_left fun a _ => rfl

/-- Stability of the descending relevance sort, in filter form: for every
score value, the tied entries appear in the sorted output in exactly their
input order.  This is the `sublist_mergeSort` stability of `List.mergeSort`
specialised to the score comparator. -/
theorem mergeSort_scoreGE_filter (l : List ScoredSection) (q : ℚ) :
    (l.mergeSort scoreGE).filter
        (fun s => decide (s.relevance_score = q)) =
      l.filter fun s => decide (s.relevance_score = q) := by
  have hmem : ∀ x ∈ l.filter fun s => decide (s.relevance_score = q),
      x.relevance_score = q := by
    intro x hx
    simpa using (List.mem_filter.mp hx).2
  have hpw : (l.filter fun s => decide (s.relevance_score = q)).Pairwise
      fun a b => scoreGE a b = true := by
    apply List.pairwise_of_forall_mem_list
    intro a ha b hb
    simp only [scoreGE, decide_eq_true_eq, hmem a ha, hmem b hb, le_refl]
  have hsub : List.Sublist (l.filter fun s => decide (s.relevance_score = q))
      (l.mergeSort scoreGE) :=
    List.sublist_mergeSort scoreGE_trans scoreGE_total hpw
      (List.filter_sublist l)
  have hself : (l.filter fun s => decide (s.relevance_score = q)).filter
      (fun s => decide (s.relevance_score = q)) =
        l.filter fun s => decide (s.relevance_score = q) :=
    List.filter_eq_self.mpr fun a ha => by simp [hmem a ha]
  have hsub2 : List.Sublist (l.filter fun s => decide (s.relevance_score = q))
      ((l.mergeSort scoreGE).filter fun s => decide (s.relevance_score = q)) := by
    rw [← hself]
    exact hsub.filter _
  have hperm : ((l.mergeSort scoreGE).filter
      fun s => decide (s.relevance_score = q)).Perm
        (l.filter fun s => decide (s.relevance_score = q)) :=
    (List.mergeSort_perm l scoreGE).filter _
  exact (hsub2.eq_of_length hperm.length_eq.symm).symm

/-- **C4.**  For every non-empty section list, the ranking pass returns the
sections sorted by descending relevance score, as a stable sort (a
permutation of the scored input in which, for each score value, tied
entries keep their input order — document order, then heading order, since
that is the order sections are accumulated in), assigns the consecutive
ranks 1, 2, … after the sort, and `rank_sections` returns the first 10 of
them together with the total candidate count. -/
theorem claim_C4 (simFn : List String → String → List ℚ)
    (sections : List Section) (persona job : String) (hne : sections ≠ []) :
    (rank_sections_by_relevance simFn sections
        (persona ++ ": " ++ job)).Pairwise
      (fun a b => b.relevance_score ≤ a.relevance_score) ∧
    ((rank_sections_by_relevance simFn sections
        (persona ++ ": " ++ job)).map stripRank).Perm
      (scoreSections (simFn (sections.map fun s => s.text)
        (persona ++ ": " ++ job)) sections (persona ++ ": " ++ job)) ∧
    (∀ q : ℚ,
      ((rank_sections_by_relevance simFn sections
          (persona ++ ": " ++ job)).map stripRank).filter
        (fun s => decide (s.relevance_score = q)) =
      (scoreSections (simFn (sections.map fun s => s.text)
          (persona ++ ": " ++ job)) sections (persona ++ ": " ++ job)).filter
        fun s => decide (s.relevance_score = q)) ∧
    (∀ i (hi : i < (rank_sections_by_relevance simFn sections
        (persona ++ ": " ++ job)).length),
      ((rank_sections_by_relevance simFn sections
          (persona ++ ": " ++ job)).get ⟨i, hi⟩).importance_rank = i + 1) ∧
    rank_sections simFn [some sections] persona job =
      Except.ok ((rank_sections_by_relevance simFn sections
        (persona ++ ": " ++ job)).take 10, sections.length) := by
  set query := persona ++ ": " ++ job with hq
  set sims := simFn (sections.map fun s => s.text) query with hsims
  set scored := scoreSections sims sections query with hscored
  set ms := scored.mergeSort scoreGE with hms
  have hout : rank_sections_by_relevance simFn sections query =
      setRanks 0 ms := by
    unfold rank_sections_by_relevance
    rw [if_neg (fun h => hne (List.isEmpty_iff_eq_nil.mp h))]
  have hzero : ∀ x ∈ scored, x.importance_rank = 0 := by
    intro x hx
    rw [hscored] at hx
    unfold scoreSections at hx
    obtain ⟨p, -, rfl⟩ := List.mem_map.mp hx
    rfl
  have hmsid : ms.map stripRank = ms := by
    have h : ∀ a ∈ ms, stripRank a = id a := by
      intro a ha
      have h0 := hzero a (List.mem_mergeSort.mp (hms ▸ ha))
      cases a with
      | mk sec rs ir =>
        simp only [stripRank, id]
        simp only at h0
        rw [h0]
    rw [List.map_congr_left h, List.map_id]
  refine ⟨?_, ?_, ?_, ?_, ?_⟩
  · rw [hout]
    have h2 := List.sorted_mergeSort scoreGE_trans scoreGE_total scored
    have h3 : (ms.map fun s => s.relevance_score).Pairwise
        fun x y : ℚ => y ≤ x := by
      rw [List.pairwise_map]
      exact (hms ▸ h2).imp fun h => by
        simpa [scoreGE] using h
    have h4 : ((setRanks 0 ms).map fun s => s.relevance_score).Pairwise
        fun x y : ℚ => y ≤ x := by
      rw [setRanks_map_score]
      exact h3
    rw [List.pairwise_map] at h4
    exact h4
  · rw [hout, setRanks_map_stripRank, hmsid]
    exact List.mergeSort_perm scored scoreGE
  · intro q
    rw [hout, setRanks_map_stripRank, hmsid, hms]
    exact mergeSort_scoreGE_filter scored q
  · intro i hi
    rw [List.get_of_eq hout ⟨i, hi⟩]
    rw [setRanks_get_rank]
    simp
  · unfold rank_sections
    simp only [List.foldl_cons, List.foldl_nil, Option.getD_some,
      List.nil_append]
    rw [if_neg (fun h => hne (List.isEmpty_iff_eq_nil.mp h))]

/-- **C4 witness**: the ranking contract instantiated at a concrete
one-section batch with a constant similarity backend. -/
theorem claim_C4_witness :
    ([c6Section] ≠ ([] : List Section)) ∧
      ((rank_sections_by_relevance (fun _ _ => [1]) [c6Section]
          ("p" ++ ": " ++ "j")).Pairwise
        (fun a b => b.relevance_score ≤ a.relevance_score) ∧
      ((rank_sections_by_relevance (fun _ _ => [1]) [c6Section]
          ("p" ++ ": " ++ "j")).map stripRank).Perm
        (scoreSections ((fun (_ : List String) (_ : String) => [(1 : ℚ)])
          ([c6Section].map fun s => s.text) ("p" ++ ": " ++ "j"))
          [c6Section] ("p" ++ ": " ++ "j")) ∧
      (∀ q : ℚ,
        ((rank_sections_by_relevance (fun _ _ => [1]) [c6Section]
            ("p" ++ ": " ++ "j")).map stripRank).filter
          (fun s => decide (s.relevance_score = q)) =
        (scoreSections ((fun (_ : List String) (_ : String) => [(1 : ℚ)])
            ([c6Section].map fun s => s.text) ("p" ++ ": " ++ "j"))
            [c6Section] ("p" ++ ": " ++ "j")).filter
          fun s => decide (s.relevance_score = q)) ∧
      (∀ i (hi : i < (rank_sections_by_relevance (fun _ _ => [1]) [c6Section]
          ("p" ++ ": " ++ "j")).length),
        ((rank_sections_by_relevance (fun _ _ => [1]) [c6Section]
            ("p" ++ ": " ++ "j")).get ⟨i, hi⟩).importance_rank = i + 1) ∧
      rank_sections (fun _ _ => [1]) [some [c6Section]] "p" "j" =
        Except.ok ((rank_sections_by_relevance (fun _ _ => [1]) [c6Section]
          ("p" ++ ": " ++ "j")).take 10, [c6Section].length)) :=
  ⟨by simp, claim_C4 (fun _ _ => [1]) [c6Section] "p" "j" (by simp)⟩

/-! ## Section-segmentation lemmas -/

/-- Appending a trailing whitespace character does not change the word
split. -/
theorem pyWordsAux_append_ws (c : Char) (hc : c.isWhitespace = true) :
    ∀ (l acc : List Char), pyWordsAux (l ++ [c]) acc = pyWordsAux l acc := by
  intro l
  induction l with
  | nil =>
    intro acc
    simp only [List.nil_append, pyWordsAux, hc, if_true]
    by_cases h : acc.isEmpty <;> simp [pyWordsAux, h]
  | cons d rest ih =>
    intro acc
    simp only [List.cons_append, pyWordsAux]
    by_cases hd : d.isWhitespace <;> simp [hd, ih]

/-- A trailing newline is invisible to Python's `str.split()`. -/
theorem pySplit_append_newline (s : String) :
    pySplit (s ++ "\n") = pySplit s := by
  unfold pySplit
  rw [String.data_append, show ("\n" : String).data = ['\n'] from rfl,
    pyWordsAux_append_ws '\n' (by decide)]

/-- A trailing newline is erased by `_clean_text`. -/
theorem clean_text_append_newline (s : String) :
    clean_text (s ++ "\n") = clean_text s := by
  unfold clean_text
  rw [pySplit_append_newline]

/-- Reading the pages of a `range(a, a + n)` out of the page list is the
`take`/`drop` slice, provided the range stays in bounds. -/
theorem range'_map_getD (l : List String) (d : String) :
    ∀ (n a : Nat), a + n ≤ l.length →
      (List.range' a n).map (fun p => l.getD p d) = (l.drop a).take n := by
  intro n
  induction n with
  | zero => intro a h; simp
  | succ n ih =>
    intro a h
    rw [List.range'_succ]
    simp only [List.map_cons]
    rw [ih (a + 1) (by omega)]
    have ha : a < l.length := by omega
    rw [List.getD_eq_getElem?_getD, List.getElem?_eq_getElem ha,
      Option.getD_some, List.drop_eq_getElem_cons ha]
    rfl

/-- Pulling the accumulator out of the page-concatenation fold. -/
theorem foldl_append_nl (xs : List String) :
    ∀ acc : String, xs.foldl (fun s t => s ++ t ++ "\n") acc =
      acc ++ xs.foldl (fun s t => s ++ t ++ "\n") "" := by
  induction xs with
  | nil => intro acc; simp
  | cons x rest ih =>
    intro acc
    simp only [List.foldl_cons]
    rw [ih (acc ++ x ++ "\n"), ih ("" ++ x ++ "\n")]
    simp [String.append_assoc]

/-- Pulling a prefix out of the join fold of `pyJoin`. -/
theorem pyJoin_foldl_acc (sep : String) (xs : List String) :
    ∀ a b : String, xs.foldl (fun acc s => acc ++ sep ++ s) (a ++ b) =
      a ++ xs.foldl (fun acc s => acc ++ sep ++ s) b := by
  induction xs with
  | nil => intro a b; simp
  | cons x rest ih =>
    intro a b
    simp only [List.foldl_cons]
    rw [String.append_assoc (a ++ b) sep x, String.append_assoc a b (sep ++ x),
      ih a (b ++ (sep ++ x)), String.append_assoc b sep x]

/-- The page-concatenation fold is the newline join plus one trailing
newline. -/
theorem foldl_nl_eq_pyJoin (x : String) (xs : List String) :
    (x :: xs).foldl (fun s t => s ++ t ++ "\n") "" =
      pyJoin "\n" (x :: xs) ++ "\n" := by
  induction xs generalizing x with
  | nil => simp [pyJoin]
  | cons y rest ih =>
    have h1 := foldl_append_nl (y :: rest) (x ++ "\n")
    have h2 := ih y
    have h3 : pyJoin "\n" (x :: y :: rest) =
        (x ++ "\n") ++ pyJoin "\n" (y :: rest) := by
      simp only [pyJoin, List.foldl_cons]
      rw [show x ++ "\n" ++ y = (x ++ "\n") ++ y from rfl,
        pyJoin_foldl_acc "\n" rest (x ++ "\n") y]
    calc (x :: y :: rest).foldl (fun s t => s ++ t ++ "\n") ""
        = (y :: rest).foldl (fun s t => s ++ t ++ "\n") (x ++ "\n") := by
          simp [List.foldl_cons]
      _ = (x ++ "\n") ++ ((y :: rest).foldl (fun s t => s ++ t ++ "\n") "") :=
          h1
      _ = (x ++ "\n") ++ (pyJoin "\n" (y :: rest) ++ "\n") := by rw [h2]
      _ = pyJoin "\n" (x :: y :: rest) ++ "\n" := by
          rw [h3]
          simp [String.append_assoc]

/-- The raw section text assembled page by page cleans to the same string
as the newline join of the page slice: the only difference between the two
is the final trailing newline, which whitespace normalization erases. -/
theorem clean_section_raw (l : List String) (a b : Nat) (hb : b ≤ l.length) :
    clean_text (section_raw_text l a b) =
      clean_text (pyJoin "\n" ((l.drop a).take (b - a))) := by
  unfold section_raw_text pyRange
  by_cases hab : b ≤ a
  · rw [show b - a = 0 from by omega]
    simp [pyJoin]
  · have hn : a + (b - a) ≤ l.length := by omega
    rw [(List.foldl_map (fun p => l.getD p "")
        (fun s t => s ++ t ++ "\n") (List.range' a (b - a)) "").symm,
      range'_map_getD l "" (b - a) a hn]
    cases hslice : (l.drop a).take (b - a) with
    | nil => simp [pyJoin]
    | cons x xs =>
      rw [foldl_nl_eq_pyJoin x xs]
      exact clean_text_append_newline _

/-- One section is produced per heading. -/
theorem extract_full_sections_length (pageTexts : List String) :
    ∀ outline : List Heading,
      (extract_full_sections pageTexts outline).length = outline.length := by
  intro outline
  induction outline with
  | nil => rfl
  | cons h rest ih => simp [extract_full_sections, ih]

/-- The `i`-th section comes from the `i`-th heading, with the end page
taken from heading `i + 1` when it exists and from the page count
otherwise. -/
theorem extract_full_sections_get (pageTexts : List String) :
    ∀ (outline : List Heading) (i : Nat) (hi : i < outline.length)
      (hs : i < (extract_full_sections pageTexts outline).length),
      (extract_full_sections pageTexts outline).get ⟨i, hs⟩ =
        mkSection pageTexts (outline.get ⟨i, hi⟩)
          (if h : i + 1 < outline.length then (outline.get ⟨i + 1, h⟩).page
           else pageTexts.length) := by
  intro outline
  induction outline with
  | nil => intro i hi hs; exact absurd hi (by simp)
  | cons h rest ih =>
    intro i hi hs
    match i with
    | 0 =>
      cases rest with
      | nil => simp [extract_full_sections]
      | cons h2 rest2 => simp [extract_full_sections]
    | i' + 1 =>
      have hi' : i' < rest.length := by simpa using hi
      have hs' : i' < (extract_full_sections pageTexts rest).length := by
        rw [extract_full_sections_length]
        exact hi'
      cases rest with
      | nil => exact absurd hi' (by simp)
      | cons h2 rest2 =>
        have hgoal : (extract_full_sections pageTexts
            (h :: h2 :: rest2)).get ⟨i' + 1, hs⟩ =
            (extract_full_sections pageTexts (h2 :: rest2)).get ⟨i', hs'⟩ :=
          rfl
        rw [hgoal, ih i' hi' hs']
        by_cases hc : i' + 1 < (h2 :: rest2).length
        · rw [dif_pos hc, dif_pos (by simpa using hc)]
          rfl
        · rw [dif_neg hc, dif_neg (by simpa using hc)]
          rfl

/-- **C2 counterexample.**  Two pages `["alpha", "beta"]` and headings on
page 1 and page 2.  The claim's half-open interval `[startPage, endPage)` =
`[1, 2)` predicts the first section's text is page 1 alone, i.e. `"alpha"`;
the code's `range(start_page - 1, min(end_page, len(doc)))` also includes
the next heading's page, producing `"alpha beta"`. -/
theorem claim_C2_counterexample :
    ((extract_full_sections ["alpha", "beta"]
        [{ level := "H1", text := "A", page := 1 },
         { level := "H1", text := "B", page := 2 }]).map fun s => s.text) =
      ["alpha beta", "beta"] ∧
    clean_text (pyJoin "\n" (((["alpha", "beta"] : List String).drop
      (1 - 1)).take (2 - 1))) = "alpha" ∧
    ("alpha beta" : String) ≠ "alpha" := by
  refine ⟨by decide, by decide, by decide⟩

/-- **C2 (amended).**  For every heading `i`, the section text is the page
texts for the *closed* interval of pages `[startPage, min(endPage,
pageCount)]` — where `endPage` is the next heading's page when it exists
and the page count otherwise — joined by newlines and whitespace-normalized
(runs of whitespace collapsed to single spaces and trimmed).  Equivalently,
the code keeps reading *through* the next heading's page instead of
stopping just before it. -/
theorem claim_C2_amended (pageTexts : List String) (outline : List Heading)
    (hpages : ∀ h ∈ outline, 1 ≤ h.page) (i : Nat) (hi : i < outline.length) :
    ∃ hs : i < (extract_full_sections pageTexts outline).length,
      ((extract_full_sections pageTexts outline).get ⟨i, hs⟩).text =
        clean_text (pyJoin "\n"
          ((pageTexts.drop ((outline.get ⟨i, hi⟩).page - 1)).take
            (min (if h : i + 1 < outline.length
                  then (outline.get ⟨i + 1, h⟩).page
                  else pageTexts.length) pageTexts.length + 1 -
              (outline.get ⟨i, hi⟩).page))) := by
  have hs : i < (extract_full_sections pageTexts outline).length := by
    rw [extract_full_sections_length]
    exact hi
  refine ⟨hs, ?_⟩
  rw [extract_full_sections_get pageTexts outline i hi hs]
  simp only [mkSection]
  have hp : 1 ≤ (outline.get ⟨i, hi⟩).page :=
    hpages _ (outline.get_mem i hi)
  have harg : min (if h : i + 1 < outline.length
        then (outline.get ⟨i + 1, h⟩).page
        else pageTexts.length) pageTexts.length + 1 -
      (outline.get ⟨i, hi⟩).page =
    min (if h : i + 1 < outline.length
        then (outline.get ⟨i + 1, h⟩).page
        else pageTexts.length) pageTexts.length -
      ((outline.get ⟨i, hi⟩).page - 1) := by
    omega
  rw [harg]
  exact clean_section_raw pageTexts ((outline.get ⟨i, hi⟩).page - 1)
    (min (if h : i + 1 < outline.length
        then (outline.get ⟨i + 1, h⟩).page
        else pageTexts.length) pageTexts.length) (by omega)

/-- The two-heading outline used in the segmentation witness. -/
def c2Outline : List Heading :=
  [{ level := "H1", text := "A", page := 1 },
   { level := "H1", text := "B", page := 2 }]

/-- **C2 witness**: the amended page-interval contract at the concrete
two-page document. -/
theorem claim_C2_witness :
    (∀ h ∈ c2Outline, 1 ≤ h.page) ∧
      ∃ hs : 0 < (extract_full_sections ["alpha", "beta"] c2Outline).length,
        ((extract_full_sections ["alpha", "beta"] c2Outline).get
            ⟨0, hs⟩).text =
          clean_text (pyJoin "\n"
            (((["alpha", "beta"] : List String).drop
                ((c2Outline.get ⟨0, by decide⟩).page - 1)).take
              (min (if h : 0 + 1 < c2Outline.length
                    then (c2Outline.get ⟨0 + 1, h⟩).page
                    else (["alpha", "beta"] : List String).length)
                  (["alpha", "beta"] : List String).length + 1 -
                (c2Outline.get ⟨0, by decide⟩).page))) :=
  ⟨by decide,
    claim_C2_amended ["alpha", "beta"] c2Outline (by decide) 0 (by decide)⟩

/-! ## The heading-order claim -/

/-- The text-lookup sort comparator is transitive. -/
theorem headingKeyLE_trans (blocks : List Block) (a b c : Heading) :
    headingKeyLE blocks a b → headingKeyLE blocks b c →
      headingKeyLE blocks a c := by
  simp only [headingKeyLE, decide_eq_true_eq]
  intro h1 h2
  rcases h1 with h1 | ⟨h1e, h1y⟩ <;> rcases h2 with h2 | ⟨h2e, h2y⟩
  · exact Or.inl (lt_trans h1 h2)
  · exact Or.inl (h2e ▸ h1)
  · exact Or.inl (h1e ▸ h2)
  · exact Or.inr ⟨h1e.trans h2e, le_trans h1y h2y⟩

/-- The text-lookup sort comparator is total. -/
theorem headingKeyLE_total (blocks : List Block) (a b : Heading) :
    headingKeyLE blocks a b || headingKeyLE blocks b a := by
  simp only [headingKeyLE, Bool.or_eq_true, decide_eq_true_eq]
  rcases Nat.lt_trichotomy a.page b.page with h | h | h
  · exact Or.inl (Or.inl h)
  · rcases le_total (heading_sort_y blocks a.text)
      (heading_sort_y blocks b.text) with hy | hy
    · exact Or.inl (Or.inr ⟨h, hy⟩)
    · exact Or.inr (Or.inr ⟨h.symm, hy⟩)
  · exact Or.inr (Or.inl h)

/-- The failing input for the heading-order claim: three same-font blocks
on page 1, where the text "Intro" occurs at `y = 10` and again at
`y = 90`, with "Zeta" between them at `y = 50`. -/
def c1Blocks : List Block :=
  [{ text := "Intro", fontsize := 10, is_bold := false, x_position := 0,
     y_position := 10, page := 1 },
   { text := "Zeta", fontsize := 10, is_bold := false, x_position := 0,
     y_position := 50, page := 1 },
   { text := "Intro", fontsize := 10, is_bold := false, x_position := 0,
     y_position := 90, page := 1 }]

/-- The heading the classifier produces for the "Intro" blocks. -/
def c1HI : Heading := { level := "H3", text := "Intro", page := 1 }

/-- The heading the classifier produces for the "Zeta" block. -/
def c1HZ : Heading := { level := "H3", text := "Zeta", page := 1 }

/-- **C1 (code bug).**  On `c1Blocks` — which are already listed in
ascending order of their own `(page, y0)` keys, with texts
`["Intro", "Zeta", "Intro"]` — `_extract_headings` emits the headings in
the order `["Intro", "Intro", "Zeta"]`: the sort key re-derives each
heading's `y0` by *text lookup*, so the second "Intro" (at `y = 90`)
borrows the first "Intro"'s `y = 10` and is sorted before "Zeta"
(`y = 50`), violating the claimed per-heading position-key order. -/
theorem claim_C1 :
    c1Blocks.Pairwise (fun a b => a.page < b.page ∨
      (a.page = b.page ∧ a.y_position ≤ b.y_position)) ∧
    (c1Blocks.map fun b => b.text) = ["Intro", "Zeta", "Intro"] ∧
    ((extract_headings c1Blocks (pymedian (font_sizes c1Blocks)) 1).map
      fun h => h.text) = ["Intro", "Intro", "Zeta"] ∧
    (["Intro", "Intro", "Zeta"] : List String) ≠ ["Intro", "Zeta", "Intro"] := by
  refine ⟨by decide, by decide, ?_, by decide⟩
  have hfs : font_sizes c1Blocks = [10, 10, 10] := by decide
  have hmed : pymedian (font_sizes c1Blocks) = 10 := by
    rw [hfs]
    refine pymedian_const _ 10 (by simp) ?_
    intro x hx
    simp only [List.mem_cons, List.not_mem_nil, or_false] at hx
    rcases hx with rfl | rfl | rfl <;> rfl
  rw [hmed]
  have hcand : c1Blocks.filter
      (fun b => is_heading_candidate b 10 1) = c1Blocks := by
    refine List.filter_eq_self.mpr ?_
    intro b hb
    have hf : b.fontsize = 10 := by
      simp only [c1Blocks, List.mem_cons, List.not_mem_nil, or_false] at hb
      rcases hb with rfl | rfl | rfl <;> rfl
    simp only [is_heading_candidate, min_heading_font_threshold, hf]
    rw [decide_eq_true (show (10 : ℚ) / 10 ≥ 1.0 from by norm_num)]
    simp
  have hlev10 : ∀ (t : String) (bold : Bool) (x y : ℚ) (p : Nat),
      determine_heading_level
        { text := t, fontsize := 10, is_bold := bold, x_position := x,
          y_position := y, page := p } 10 = "H3" := by
    intro t bold x y p
    simp only [determine_heading_level]
    rw [if_neg (by norm_num [min_h1_font_threshold]),
      if_neg (by norm_num [min_h2_font_threshold])]
  have hmap : (c1Blocks.filter
        (fun b => is_heading_candidate b 10 1)).map
      (fun b =>
        ({ level := determine_heading_level b 10, text := b.text,
           page := b.page } : Heading)) = [c1HI, c1HZ, c1HI] := by
    rw [hcand]
    simp only [c1Blocks, List.map_cons, List.map_nil, hlev10]
    rfl
  show (((c1Blocks.filter (fun b => is_heading_candidate b 10 1)).map
      (fun b =>
        ({ level := determine_heading_level b 10, text := b.text,
           page := b.page } : Heading))).mergeSort
        (headingKeyLE c1Blocks)).map (fun h => h.text) =
    ["Intro", "Intro", "Zeta"]
  rw [hmap]
  have hsort : ([c1HI, c1HZ, c1HI].mergeSort (headingKeyLE c1Blocks)) =
      [c1HI, c1HI, c1HZ] := by
    have hZI : headingKeyLE c1Blocks c1HZ c1HI = false := by decide
    have hanti : ∀ a b : Heading,
        a ∈ [c1HI, c1HZ, c1HI].mergeSort (headingKeyLE c1Blocks) →
        b ∈ ([c1HI, c1HI, c1HZ] : List Heading) →
        headingKeyLE c1Blocks a b = true →
        headingKeyLE c1Blocks b a = true → a = b := by
      intro a b ha hb hab hba
      rw [List.mem_mergeSort] at ha
      have ha' : a = c1HI ∨ a = c1HZ := by
        simp only [List.mem_cons, List.not_mem_nil, or_false] at ha
        tauto
      have hb' : b = c1HI ∨ b = c1HZ := by
        simp only [List.mem_cons, List.not_mem_nil, or_false] at hb
        tauto
      rcases ha' with rfl | rfl <;> rcases hb' with rfl | rfl
      · rfl
      · rw [hZI] at hba
        exact absurd hba (by simp)
      · rw [hZI] at hab
        exact absurd hab (by simp)
      · rfl
    exact List.Perm.eq_of_sorted hanti
      (List.sorted_mergeSort (headingKeyLE_trans c1Blocks)
        (headingKeyLE_total c1Blocks) [c1HI, c1HZ, c1HI])
      (by decide)
      ((List.mergeSort_perm [c1HI, c1HZ, c1HI]
        (headingKeyLE c1Blocks)).trans (by decide))
  rw [hsort]
  decide
